import Mathlib

/-!
# Verification of the Q-CHAIN core blockchain (`src/real_blockchain.py`)

Shallow embedding of the core slice of `real_blockchain.py`: the crypto
utilities (`CryptoUtils`, `KeyPair`), the token ledger (`Token`), blocks
(`Block`), and the chain (`Blockchain`) with its append, transfer, mint,
validation, fork-resolution and snapshot-loading operations.

Modelling conventions:
* Python `int` is `Int` (amounts, supplies) or `Nat` (indices, nonces, fuel).
* Python `float` timestamps are modelled as `Nat`; no claim depends on
  float arithmetic, only on the timestamp being part of the hashed record.
* `hashlib.sha256` is modelled by abstract function parameters collected in
  a `CryptoModel`: `hashCore` stands for
  `sha256(json.dumps(block fields, sort_keys=True))` (the composition of the
  canonical JSON encoding with SHA-256) and `hashStr` for `sha256` applied to
  a plain string.  `encodePayload` stands for
  `json.dumps(data, sort_keys=True)`.  Where a claim needs collision
  freedom, it is taken as a hypothesis on the concrete digests involved
  (the standard idealization of a collision-resistant hash).
* Python `defaultdict(int)` maps are association lists with default value 0
  (`lookupD`).  Reading a missing key in Python inserts an explicit 0 entry;
  this changes neither any balance value nor the sum of balances, so the
  model's read is pure.
* The unbounded proof-of-work search loop is given explicit fuel and
  returns `Option`; `none` models a call that has not returned.
* `os.urandom` randomness (key material, genesis signature bits) is passed
  in as explicit parameters.
-/

/-- `m[k]` for a `defaultdict(int)`-style association list: the value at the
first entry for `k`, or 0 when absent. -/
def lookupD {α : Type} [DecidableEq α] : List (α × Int) → α → Int
  | [], _ => 0
  | (k, v) :: rest, x => if x = k then v else lookupD rest x

/-- `m[k] += d` on a `defaultdict(int)`: bump the first entry for `k`,
appending a fresh entry holding `d` when `k` is absent. -/
def addD {α : Type} [DecidableEq α] : List (α × Int) → α → Int → List (α × Int)
  | [], x, d => [(x, d)]
  | (k, v) :: rest, x, d =>
      if x = k then (k, v + d) :: rest else (k, v) :: addD rest x d

/-- `m[k] = v` on a `defaultdict(int)`: overwrite the first entry for `k`,
appending a fresh entry when `k` is absent. -/
def setD {α : Type} [DecidableEq α] : List (α × Int) → α → Int → List (α × Int)
  | [], x, d => [(x, d)]
  | (k, v) :: rest, x, d =>
      if x = k then (k, d) :: rest else (k, v) :: setD rest x d

/-- `sum(m.values())`. -/
def sumD {α : Type} (m : List (α × Int)) : Int :=
  (m.map (·.2)).sum

/-- All stored values are non-negative (hence so is every lookup). -/
def allNonnegD {α : Type} (m : List (α × Int)) : Bool :=
  m.all (fun kv => 0 ≤ kv.2)

/-- Propositional form of `allNonnegD`. -/
def NonnegEntries {α : Type} (m : List (α × Int)) : Prop :=
  ∀ p ∈ m, 0 ≤ p.2

/-! ## Payloads (`data` stored in a block)

`Block.data` is `Any` in Python; the program only ever stores the genesis
dictionary, a token-transfer dictionary, a token-mint dictionary, or plain
data.  `add_block` may add `public_key`/`signature` keys to a dictionary
payload, modelled by the `Option String` fields. -/

/-- The genesis block's `data` dictionary (built in `_create_genesis_block`),
with the nested `token_info` dictionary flattened into `token_` fields. -/
structure GenesisData where
  message : String
  tsIso : String
  creator : String
  creator_address : String
  signature_key : String
  token_name : String
  token_symbol : String
  token_total_supply : Int
  initial_holder : String
  public_key : Option String
  signature : Option String
deriving DecidableEq

/-- A `token_transfer` transaction dictionary (built in `transfer_token`). -/
structure TxData where
  txType : String
  sender : String
  recipient : String
  amount : Int
  token : String
  timestamp : Nat
  signature : Option String
  public_key : Option String
deriving DecidableEq

/-- A `token_mint` record dictionary (built in `mint_tokens`). -/
structure MintData where
  minter : String
  recipient : String
  amount : Int
  token : String
  new_total_supply : Int
  timestamp : Nat
  signature : Option String
  public_key : Option String
deriving DecidableEq

/-- A block payload. `plain` stands for any non-dictionary data. -/
inductive Payload where
  | genesis (g : GenesisData)
  | transferTx (t : TxData)
  | mintTx (m : MintData)
  | plain (s : String)
deriving DecidableEq

/-- `data.get("creator_address")`: only the genesis dictionary carries the
key; for the other dictionary payloads `.get` returns `None`.  (On a
non-dictionary payload Python would raise; the protocol never reaches
that case, and the model returns `none` there.) -/
def Payload.creatorAddress : Payload → Option String
  | .genesis g => some g.creator_address
  | .transferTx _ => none
  | .mintTx _ => none
  | .plain _ => none

/-- `data.get("public_key")` on a dictionary payload. -/
def Payload.publicKeyOf : Payload → Option String
  | .genesis g => g.public_key
  | .transferTx t => t.public_key
  | .mintTx m => m.public_key
  | .plain _ => none

/-- `add_block`'s mutation `data["public_key"] = pk; data["signature"] = s`,
performed only when the data is a dictionary (`isinstance(data, dict)`). -/
def Payload.withKeySig : Payload → String → String → Payload
  | .genesis g, pk, s => .genesis {g with public_key := some pk, signature := some s}
  | .transferTx t, pk, s => .transferTx {t with public_key := some pk, signature := some s}
  | .mintTx m, pk, s => .mintTx {m with public_key := some pk, signature := some s}
  | .plain str, _, _ => .plain str

/-! ## Crypto primitives (`CryptoUtils`, `KeyPair`) -/

/-- The fields of a block that are hashed by `Block._calculate_hash`
(everything except the stored `hash` and the `difficulty` field). -/
structure BlockCore where
  index : Nat
  timestamp : Nat
  data : Payload
  previous_hash : String
  signature : String
  nonce : Nat
deriving DecidableEq

/-- Abstract model of the SHA-256 based primitives.  `hashCore` is
`sha256(json.dumps({index, timestamp, data, previous_hash, signature,
nonce}, sort_keys=True))` — the canonical JSON encoding composed with the
digest; `hashStr` is `sha256` on a plain string; `encodePayload` is
`json.dumps(data, sort_keys=True)`. -/
structure CryptoModel where
  hashCore : BlockCore → String
  hashStr : String → String
  encodePayload : Payload → String

/-- `CryptoUtils.bitstring_to_hex`: parse a binary string and render it as
lowercase hex without leading zeros (Python `hex(int(bits, 2))[2:]`).
The zero-padding step in the source only normalizes the parse and does not
change the integer value. -/
def bitstring_to_hex (bits : String) : String :=
  let n := bits.data.foldl (fun acc c => acc * 2 + (if c = '1' then 1 else 0)) 0
  String.mk (Nat.toDigits 16 n)

/-- `CryptoUtils.secure_hash(data, output_size=64)`.  The 16-byte salt drawn
from `os.urandom` inside the function is made an explicit argument; the
Python call site draws a fresh salt on every invocation. -/
def secure_hash (sha : String → String) (data : String) (salt : String) : String :=
  (sha (String.append (sha data) salt)).take 64

/-- `KeyPair`: `public_key = sha256(private_key)`. -/
structure KeyPair where
  private_key : String
  public_key : String
deriving DecidableEq

/-- The `KeyPair` constructor for a given private key (the random-generation
branch passes freshly drawn key material as `priv`). -/
def KeyPair.create (C : CryptoModel) (priv : String) : KeyPair :=
  ⟨priv, C.hashStr priv⟩

/-- `KeyPair.sign`: `sha256(data + private_key)`. -/
def KeyPair.sign (C : CryptoModel) (kp : KeyPair) (data : String) : String :=
  C.hashStr (String.append data kp.private_key)

/-- `KeyPair.verify`: re-sign and compare.  Note that this reads
`self.private_key`, never `self.public_key`. -/
def KeyPair.verify (C : CryptoModel) (kp : KeyPair) (data sig : String) : Bool :=
  KeyPair.sign C kp data == sig

/-! ## Blocks -/

/-- A block.  `difficulty` is the constructor argument stored on the object
(default 4); it is not part of the hashed fields and the validity checks use
the chain's difficulty instead. -/
structure Block where
  index : Nat
  timestamp : Nat
  data : Payload
  previous_hash : String
  difficulty : Nat
  nonce : Nat
  signature : String
  hash : String
deriving DecidableEq

/-- The hashed fields of a block. -/
def Block.core (b : Block) : BlockCore :=
  ⟨b.index, b.timestamp, b.data, b.previous_hash, b.signature, b.nonce⟩

/-- `Block._calculate_hash`: hash of the canonical encoding of the six
hashed fields; it never reads the stored `hash`. -/
def calcHash (C : CryptoModel) (b : Block) : String :=
  C.hashCore b.core

/-- `Block.__init__`: store the fields and compute the hash immediately.
The caller resolves `signature or CryptoUtils.generate_random_bits(128)`
(the random bits are an explicit argument at call sites). -/
def Block.new (C : CryptoModel) (index timestamp : Nat) (data : Payload)
    (previous_hash : String) (difficulty nonce : Nat) (signature : String) : Block :=
  { index := index, timestamp := timestamp, data := data,
    previous_hash := previous_hash, difficulty := difficulty, nonce := nonce,
    signature := signature,
    hash := C.hashCore ⟨index, timestamp, data, previous_hash, signature, nonce⟩ }

/-- `'0' * d`. -/
def zeros (d : Nat) : String :=
  String.mk (List.replicate d '0')

/-- `hash[:d] == '0' * d`: the proof-of-work target check. -/
def leadingZeros (d : Nat) (h : String) : Bool :=
  h.take d == zeros d

/-- `Block.mine_block(difficulty)`: repeatedly increment `nonce` and
recompute `hash` until the first `difficulty` characters are `'0'`.
The loop is unbounded in the source; `fuel` bounds it here and `none`
models a call that has not returned. -/
def Block.mine_block (C : CryptoModel) (d : Nat) : Nat → Block → Option Block
  | 0, b => if leadingZeros d b.hash then some b else none
  | fuel + 1, b =>
      if leadingZeros d b.hash then some b
      else
        let b1 : Block := {b with nonce := b.nonce + 1}
        Block.mine_block C d fuel {b1 with hash := calcHash C b1}

/-! ## Token ledger (`Token`) -/

/-- The token ledger: metadata, total supply, balances and allowances. -/
structure Token where
  name : String
  symbol : String
  decimals : Nat
  total_supply : Int
  balances : List (String × Int)
  allowed : List ((String × String) × Int)
deriving DecidableEq

/-- `Token.__init__`: fresh ledger with empty balance and allowance maps. -/
def Token.mkToken (name symbol : String) (decimals : Nat) (total_supply : Int) : Token :=
  ⟨name, symbol, decimals, total_supply, [], []⟩

/-- `Token.initial_distribution`: `balances[creator] = total_supply`. -/
def Token.initial_distribution (t : Token) (creator : String) : Token :=
  {t with balances := setD t.balances creator t.total_supply}

/-- `Token.balance_of`. -/
def Token.balance_of (t : Token) (owner : String) : Int :=
  lookupD t.balances owner

/-- `Token.transfer`: fail when `balances[sender] < amount`, else debit the
sender and credit the recipient.  There is no positivity check on
`amount`. -/
def Token.transfer (t : Token) (sender recipient : String) (amount : Int) :
    Bool × Token :=
  if lookupD t.balances sender < amount then (false, t)
  else
    (true, {t with balances := addD (addD t.balances sender (-amount)) recipient amount})

/-- `Token.approve`: `allowed[owner][spender] = amount`; always succeeds. -/
def Token.approve (t : Token) (owner spender : String) (amount : Int) :
    Bool × Token :=
  (true, {t with allowed := setD t.allowed (owner, spender) amount})

/-- `Token.allowance`. -/
def Token.allowance (t : Token) (owner spender : String) : Int :=
  lookupD t.allowed (owner, spender)

/-- `Token.transfer_from`: fail when the owner's balance or the spender's
allowance is below `amount`; else debit the owner, credit the recipient and
decrement the allowance. -/
def Token.transfer_from (t : Token) (spender owner recipient : String)
    (amount : Int) : Bool × Token :=
  if lookupD t.balances owner < amount ∨ lookupD t.allowed (owner, spender) < amount then
    (false, t)
  else
    (true,
      {t with
        balances := addD (addD t.balances owner (-amount)) recipient amount,
        allowed := addD t.allowed (owner, spender) (-amount)})

/-! ## Blockchain -/

/-- The result dictionary of `transfer_token` / `mint_tokens`: the
`success` flag and (on success, when the mined block is available) the
recorded transaction dictionary. -/
structure OpResult where
  success : Bool
  tx : Option Payload
deriving DecidableEq

/-- The blockchain state: the chain, the chain difficulty and the token
ledger.  (`pending_transactions` and the peer set play no role in the
claims under verification.) -/
structure Blockchain where
  chain : List Block
  difficulty : Nat
  token : Token
deriving DecidableEq

/-- `Blockchain.__init__` / `_create_genesis_block`: build the token,
distribute the initial supply to a freshly created creator keypair, build
the genesis block (previous hash `'0' * 64`, signature the raw random
bits) and mine it at the chain difficulty.  Randomness (`creatorPriv`,
`genesisSigBits`) and the clock (`t0`, `tsIso`) are explicit arguments;
`none` models a constructor whose genesis mining has not returned. -/
def Blockchain.init (C : CryptoModel) (fuel : Nat) (difficulty : Nat)
    (token_name token_symbol : String) (token_supply : Int)
    (creatorPriv genesisSigBits : String) (t0 : Nat) (tsIso : String) :
    Option Blockchain :=
  let token0 := Token.mkToken token_name token_symbol 18 token_supply
  let creator := KeyPair.create C creatorPriv
  let token1 := token0.initial_distribution creator.public_key
  let gdata : GenesisData :=
    { message := "创世区块", tsIso := tsIso, creator := "Blockchain创建者",
      creator_address := creator.public_key,
      signature_key := bitstring_to_hex genesisSigBits,
      token_name := token1.name, token_symbol := token1.symbol,
      token_total_supply := token1.total_supply,
      initial_holder := creator.public_key,
      public_key := none, signature := none }
  let genesis := Block.new C 0 t0 (.genesis gdata) (zeros 64) 4 0 genesisSigBits
  (Block.mine_block C difficulty fuel genesis).map
    (fun g => ⟨[g], difficulty, token1⟩)

/-- `Blockchain.last_block` (`self.chain[-1]`): `none` models the
`IndexError` on an empty chain. -/
def Blockchain.last_block (bc : Blockchain) : Option Block :=
  bc.chain.getLast?

/-- `Blockchain.add_block(data, key_pair)`: when a keypair is given, sign
the canonical encoding of `data` and add `public_key`/`signature` entries
to dictionary data; build the block at index `len(chain)` on top of the
current tip and mine it at the chain difficulty; on success append it.
`randSig` is the random 128-bit signature drawn when no keypair is given;
`none` models a call that has not returned (mining) or the `IndexError`
of `last_block` on an empty chain. -/
def Blockchain.add_block (C : CryptoModel) (fuel now : Nat) (bc : Blockchain)
    (data : Payload) (kp : Option KeyPair) (randSig : String) :
    Option (Block × Blockchain) :=
  match bc.chain.getLast? with
  | none => none
  | some lastB =>
      let pair : Payload × Option String :=
        match kp with
        | some k =>
            let s := KeyPair.sign C k (C.encodePayload data)
            (Payload.withKeySig data k.public_key s, some s)
        | none => (data, none)
      let b0 := Block.new C bc.chain.length now pair.1 lastB.hash 4 0 (pair.2.getD randSig)
      (Block.mine_block C bc.difficulty fuel b0).map
        (fun b => (b, {bc with chain := bc.chain ++ [b]}))

/-- The shared tail of `transfer_token` and `mint_tokens`: record the
signed payload in a new mined block via `add_block` and build the success
dictionary (whose `transaction` entry is the payload as mutated by
`add_block`).  When the mining call has not returned (`add_block` gives
`none`) the ledger mutation has already happened and the chain is still
unchanged, which the second component reflects. -/
def recordOp (C : CryptoModel) (fuel now : Nat) (bc1 : Blockchain)
    (p : Payload) (kp : KeyPair) : OpResult × Blockchain :=
  match Blockchain.add_block C fuel now bc1 p (some kp) ("") with
  | some (b, bc2) => (⟨true, some b.data⟩, bc2)
  | none => (⟨true, none⟩, bc1)

/-- `Blockchain.transfer_token(sender_key, recipient_address, amount)`:
check the sender's balance, run `Token.transfer`, then record a signed
`token_transfer` transaction in a new mined block.  The returned payload is
the transaction dictionary after `add_block` has overwritten its
`signature` and added `public_key`. -/
def Blockchain.transfer_token (C : CryptoModel) (fuel now : Nat)
    (bc : Blockchain) (sender_key : KeyPair) (recipient : String)
    (amount : Int) : OpResult × Blockchain :=
  let sender := sender_key.public_key
  if lookupD bc.token.balances sender < amount then
    (⟨false, none⟩, bc)
  else if (Token.transfer bc.token sender recipient amount).1 = false then
    (⟨false, none⟩,
      {bc with token := (Token.transfer bc.token sender recipient amount).2})
  else
    let bc1 := {bc with token := (Token.transfer bc.token sender recipient amount).2}
      let tx0 : TxData :=
        ⟨"token_transfer", sender, recipient, amount, bc.token.symbol, now, none, none⟩
      let s1 := KeyPair.sign C sender_key (C.encodePayload (.transferTx tx0))
      let tx1 := {tx0 with signature := some s1}
      recordOp C fuel now bc1 (.transferTx tx1) sender_key

/-- `Blockchain.mint_tokens(admin_key, recipient_address, amount)`:
compare `admin_key.public_key` with `chain[0].data.get("creator_address")`;
on mismatch fail with no state change; otherwise increase the total supply
and the recipient's balance and record a signed `token_mint` block.
(On an empty chain Python raises `IndexError`; the model folds that case
into the unauthorized failure — it is unreachable from the constructor.) -/
def Blockchain.mint_tokens (C : CryptoModel) (fuel now : Nat)
    (bc : Blockchain) (admin_key : KeyPair) (recipient : String)
    (amount : Int) : OpResult × Blockchain :=
  let creator_address := (bc.chain.head?.map Block.data).bind Payload.creatorAddress
  if creator_address ≠ some admin_key.public_key then
    (⟨false, none⟩, bc)
  else
    let t1 := {bc.token with
                total_supply := bc.token.total_supply + amount,
                balances := addD bc.token.balances recipient amount}
    let bc1 := {bc with token := t1}
    let rec0 : MintData :=
      ⟨admin_key.public_key, recipient, amount, bc.token.symbol,
       t1.total_supply, now, none, none⟩
    let s1 := KeyPair.sign C admin_key (C.encodePayload (.mintTx rec0))
    let rec1 := {rec0 with signature := some s1}
    recordOp C fuel now bc1 (.mintTx rec1) admin_key

/-- The three per-block checks of `is_chain_valid`, in source order:
stored hash equals the recomputed hash, the link to the previous block
holds, and the hash meets the proof-of-work target. -/
def blockOk (C : CryptoModel) (d : Nat) (prev b : Block) : Bool :=
  (b.hash == calcHash C b) && (b.previous_hash == prev.hash) && leadingZeros d b.hash

/-- The `for i in range(1, len(chain))` loop of `is_chain_valid`, carrying
the previous block. -/
def checkFrom (C : CryptoModel) (d : Nat) : Block → List Block → Bool
  | _, [] => true
  | prev, b :: rest => blockOk C d prev b && checkFrom C d b rest

/-- `Blockchain.is_chain_valid`: every adjacent pair from index 1 on is
checked; the genesis block itself is never rechecked.  The proof-of-work
check uses the chain's current difficulty. -/
def Blockchain.is_chain_valid (C : CryptoModel) (bc : Blockchain) : Bool :=
  match bc.chain with
  | [] => true
  | g :: rest => checkFrom C bc.difficulty g rest

/-- A block record received from a peer or a snapshot file: the seven
fields of `Block.to_dict`. -/
structure BlockDict where
  index : Nat
  timestamp : Nat
  data : Payload
  previous_hash : String
  signature : String
  nonce : Nat
  hash : String
deriving DecidableEq

/-- Reconstruction of a block from a dictionary (as done in
`resolve_conflicts` and `load_from_file`): call the constructor (which
recomputes a hash, with the default difficulty 4) and then overwrite the
stored hash with the dictionary's value. -/
def BlockDict.toBlock (C : CryptoModel) (d : BlockDict) : Block :=
  {Block.new C d.index d.timestamp d.data d.previous_hash 4 d.nonce d.signature with
    hash := d.hash}

/-- The candidate checks of `resolve_conflicts`, in source order: link
first, then hash recomputation, then proof of work. -/
def candBlockOk (C : CryptoModel) (d : Nat) (prev b : Block) : Bool :=
  (b.previous_hash == prev.hash) && (b.hash == calcHash C b) && leadingZeros d b.hash

/-- The candidate-validation loop of `resolve_conflicts`. -/
def candCheckFrom (C : CryptoModel) (d : Nat) : Block → List Block → Bool
  | _, [] => true
  | prev, b :: rest => candBlockOk C d prev b && candCheckFrom C d b rest

/-- Whole-candidate validity in `resolve_conflicts` (pairs from index 1). -/
def candValid (C : CryptoModel) (d : Nat) : List Block → Bool
  | [] => true
  | g :: rest => candCheckFrom C d g rest

/-- The candidate scan of `resolve_conflicts`: reconstruct and validate
only candidates strictly longer than the best length so far (initially the
local chain's length), keeping the last valid one. -/
def resolveLoop (C : CryptoModel) (d : Nat) :
    List (List BlockDict) → Nat → Option (List Block) → Nat × Option (List Block)
  | [], maxLen, best => (maxLen, best)
  | cd :: rest, maxLen, best =>
      if maxLen < cd.length then
        let chainB := cd.map (BlockDict.toBlock C)
        if candValid C d chainB then resolveLoop C d rest cd.length (some chainB)
        else resolveLoop C d rest maxLen best
      else resolveLoop C d rest maxLen best

/-- `Blockchain.resolve_conflicts(chains)`: adopt the selected chain if one
was found (Python's `if new_chain:` is truthiness, hence the emptiness
guard) and report whether a replacement happened.  The token ledger is not
touched. -/
def Blockchain.resolve_conflicts (C : CryptoModel) (bc : Blockchain)
    (chains : List (List BlockDict)) : Bool × Blockchain :=
  match (resolveLoop C bc.difficulty chains bc.chain.length none).2 with
  | some nc => if nc.isEmpty then (false, bc) else (true, {bc with chain := nc})
  | none => (false, bc)

/-- The success path of `Blockchain.load_from_file`: the loaded state keeps
the blocks of the snapshot (reconstructed with `toBlock`), the difficulty
argument, and the snapshot's token.  The constructor-built genesis chain
and token are discarded (`blockchain.chain = []` and the `from_dict`
replacement in the source); `Token.to_dict`/`from_dict` round-trip to the
same ledger, so the token field is taken directly. -/
def Blockchain.load_from_data (C : CryptoModel) (difficulty : Nat)
    (chain_data : List BlockDict) (token_data : Token) : Blockchain :=
  { chain := chain_data.map (BlockDict.toBlock C),
    difficulty := difficulty,
    token := token_data }

/-! ## Operation sequences and the append protocol -/

/-- A ledger mutation of the public interface, with arbitrary integer
amount. -/
inductive LedgerOp where
  | transfer (sender recipient : String) (amount : Int)
  | transferFrom (spender owner recipient : String) (amount : Int)
  | approve (owner spender : String) (amount : Int)
  | mint (admin : KeyPair) (recipient : String) (amount : Int)
deriving DecidableEq

/-- Apply one ledger operation to the blockchain state. -/
def applyOp (C : CryptoModel) (fuel now : Nat) (bc : Blockchain) :
    LedgerOp → Blockchain
  | .transfer s r a => {bc with token := (Token.transfer bc.token s r a).2}
  | .transferFrom sp o r a => {bc with token := (Token.transfer_from bc.token sp o r a).2}
  | .approve o sp a => {bc with token := (Token.approve bc.token o sp a).2}
  | .mint kp r a => (Blockchain.mint_tokens C fuel now bc kp r a).2

/-- Apply a sequence of ledger operations, left to right. -/
def applyOps (C : CryptoModel) (fuel now : Nat) (bc : Blockchain)
    (ops : List LedgerOp) : Blockchain :=
  ops.foldl (applyOp C fuel now) bc

/-- The amount an operation moves. -/
def LedgerOp.amount : LedgerOp → Int
  | .transfer _ _ a => a
  | .transferFrom _ _ _ a => a
  | .approve _ _ a => a
  | .mint _ _ a => a

/-- States reachable by the normal append protocol: a freshly constructed
chain, extended by `add_block`, `transfer_token` or `mint_tokens`. -/
inductive Produced (C : CryptoModel) : Blockchain → Prop where
  | init (fuel difficulty : Nat) (tn ts : String) (sup : Int)
      (priv gbits : String) (t0 : Nat) (iso : String) (bc : Blockchain)
      (h : Blockchain.init C fuel difficulty tn ts sup priv gbits t0 iso = some bc) :
      Produced C bc
  | addBlock (fuel now : Nat) (bc : Blockchain) (data : Payload)
      (kp : Option KeyPair) (rs : String) (b : Block) (bc' : Blockchain)
      (hp : Produced C bc)
      (h : Blockchain.add_block C fuel now bc data kp rs = some (b, bc')) :
      Produced C bc'
  | transferTok (fuel now : Nat) (bc : Blockchain) (kp : KeyPair)
      (r : String) (a : Int) (res : OpResult) (bc' : Blockchain)
      (hp : Produced C bc)
      (h : Blockchain.transfer_token C fuel now bc kp r a = (res, bc')) :
      Produced C bc'
  | mintTok (fuel now : Nat) (bc : Blockchain) (kp : KeyPair)
      (r : String) (a : Int) (res : OpResult) (bc' : Blockchain)
      (hp : Produced C bc)
      (h : Blockchain.mint_tokens C fuel now bc kp r a = (res, bc')) :
      Produced C bc'

/-- A placeholder block used as the default of out-of-range reads. -/
def blockDefault : Block :=
  ⟨0, 0, .plain (zeros 0), zeros 0, 0, 0, zeros 0, zeros 0⟩

/-- Tamper with the stored payload of block `i`. -/
def setDataAt (bc : Blockchain) (i : Nat) (p : Payload) : Blockchain :=
  {bc with chain := bc.chain.set i {bc.chain.getD i blockDefault with data := p}}

/-- Tamper with the stored nonce of block `i`. -/
def setNonceAt (bc : Blockchain) (i : Nat) (n : Nat) : Blockchain :=
  {bc with chain := bc.chain.set i {bc.chain.getD i blockDefault with nonce := n}}

/-- Tamper with the stored previous hash of block `i`. -/
def setPrevHashAt (bc : Blockchain) (i : Nat) (q : String) : Blockchain :=
  {bc with chain := bc.chain.set i {bc.chain.getD i blockDefault with previous_hash := q}}

/-- Tamper with the stored hash of block `i`. -/
def setHashAt (bc : Blockchain) (i : Nat) (hsh : String) : Blockchain :=
  {bc with chain := bc.chain.set i {bc.chain.getD i blockDefault with hash := hsh}}

/-- The last element of `prev :: l`. -/
def lastOf (p : Block) (l : List Block) : Block :=
  l.getLast?.getD p

/-- The chain invariant maintained by the append protocol. -/
def ChainInv (C : CryptoModel) (bc : Blockchain) : Prop :=
  bc.chain ≠ [] ∧ Blockchain.is_chain_valid C bc = true

/-! ## Pairwise view of the validity check -/

/-- The predecessor of position `j` in the pair loop: the head block for
`j = 0`, else the block at `j - 1`. -/
def prevAt (prev : Block) (l : List Block) (j : Nat) : Block :=
  if j = 0 then prev else l.getD (j - 1) blockDefault

/-! ## Ledger invariants -/

/-- The supply-conservation invariant. -/
def Conserves (bc : Blockchain) : Prop :=
  sumD bc.token.balances = bc.token.total_supply

/-! ## Non-negativity lemmas -/

/-- Every balance entry is non-negative. -/
def BalNonneg (bc : Blockchain) : Prop :=
  NonnegEntries bc.token.balances

/-! ## A concrete instantiation of the crypto model

Used by the witnesses and counterexamples.  The functions are injective
enough on the concrete values involved, which `decide` checks pointwise;
no global collision-freedom assumption is made. -/

/-- Render an optional string. -/
def optStr : Option String → String
  | some s => "+" ++ s
  | none => "-"

/-- A concrete stand-in for `json.dumps(data, sort_keys=True)`. -/
def payloadRepr : Payload → String
  | .genesis g =>
      "G" ++ g.message ++ "," ++ g.tsIso ++ "," ++ g.creator ++ ","
        ++ g.creator_address ++ "," ++ g.signature_key ++ ","
        ++ g.token_name ++ "," ++ g.token_symbol ++ ","
        ++ toString g.token_total_supply ++ "," ++ g.initial_holder ++ ","
        ++ optStr g.public_key ++ "," ++ optStr g.signature
  | .transferTx t =>
      "T" ++ t.txType ++ "," ++ t.sender ++ "," ++ t.recipient ++ ","
        ++ toString t.amount ++ "," ++ t.token ++ ","
        ++ toString t.timestamp ++ "," ++ optStr t.signature ++ ","
        ++ optStr t.public_key
  | .mintTx m =>
      "M" ++ m.minter ++ "," ++ m.recipient ++ "," ++ toString m.amount
        ++ "," ++ m.token ++ "," ++ toString m.new_total_supply ++ ","
        ++ toString m.timestamp ++ "," ++ optStr m.signature ++ ","
        ++ optStr m.public_key
  | .plain s => "P" ++ s

/-- A concrete stand-in for the block-fields digest. -/
def hashCoreEx (c : BlockCore) : String :=
  "#" ++ toString c.index ++ ";" ++ toString c.timestamp ++ ";"
    ++ payloadRepr c.data ++ ";" ++ c.previous_hash ++ ";" ++ c.signature
    ++ ";" ++ toString c.nonce

/-- A concrete stand-in for `sha256` on strings. -/
def hashStrEx (s : String) : String :=
  "h" ++ s

/-- The concrete crypto model. -/
def Cex : CryptoModel :=
  ⟨hashCoreEx, hashStrEx, payloadRepr⟩

/-- Creator private key used in the examples. -/
def privA : String := "pa"

/-- A second private key, unrelated to `privA`. -/
def privB : String := "pb"

/-- The creator keypair (`public_key = hashStr privA`). -/
def kpA : KeyPair := KeyPair.create Cex privA

/-- A forged keypair: the private key of `privB` but the claimed address of
`kpA` (the demo in the source performs exactly this overwrite). -/
def kpF : KeyPair := ⟨privB, kpA.public_key⟩

/-- A freshly constructed chain at difficulty 0 with supply 100. -/
def bcG? : Option Blockchain :=
  Blockchain.init Cex 1 0 ("Tok") ("TK") 100 privA ("1") 0 ("iso")

/-- Fallback state for `Option.getD` (never used: `bcG?` is `some`). -/
def fallbackBC : Blockchain :=
  ⟨[], 0, Token.mkToken ("Tok") ("TK") 18 0⟩

/-- The constructed example chain (one genesis block). -/
def bcG : Blockchain := bcG?.getD fallbackBC

/-- One `add_block` on top of the example chain. -/
def step2? : Option (Block × Blockchain) :=
  bcG?.bind (fun bc => Blockchain.add_block Cex 1 1 bc (.plain ("x")) none ("rs"))

/-- The example chain of length two. -/
def bc2 : Blockchain := (step2?.map (·.2)).getD bcG

/-- The exact string signed by the block-recording step of
`transfer_token`: the canonical encoding of the transaction dictionary
after its first signature was inserted. -/
def transferMsg (C : CryptoModel) (bc : Blockchain) (kp : KeyPair)
    (r : String) (a : Int) (now : Nat) : String :=
  let tx0 : TxData :=
    ⟨"token_transfer", kp.public_key, r, a, bc.token.symbol, now, none, none⟩
  let s1 := KeyPair.sign C kp (C.encodePayload (.transferTx tx0))
  C.encodePayload (.transferTx {tx0 with signature := some s1})

/-- The exact string signed by the block-recording step of `mint_tokens`. -/
def mintMsg (C : CryptoModel) (bc : Blockchain) (kp : KeyPair)
    (r : String) (a : Int) (now : Nat) : String :=
  let rec0 : MintData :=
    ⟨kp.public_key, r, a, bc.token.symbol, bc.token.total_supply + a, now,
     none, none⟩
  let s1 := KeyPair.sign C kp (C.encodePayload (.mintTx rec0))
  C.encodePayload (.mintTx {rec0 with signature := some s1})

/-- Candidate-chain block 0 for the fork-choice example (the genesis entry
of a candidate is never checked). -/
def candBlock0 : BlockDict :=
  ⟨0, 0, .plain ("g0"), zeros 0, "s0", 0, "H0"⟩

/-- Stored hash of candidate block 1, consistent with its fields. -/
def candHash1 : String :=
  Cex.hashCore ⟨1, 0, .plain ("g1"), "H0", "s1", 0⟩

/-- Candidate-chain block 1, linked to block 0. -/
def candBlock1 : BlockDict :=
  ⟨1, 0, .plain ("g1"), "H0", "s1", 0, candHash1⟩

/-- A valid candidate chain of length 2 carrying no token operations. -/
def candChainEx : List BlockDict := [candBlock0, candBlock1]

/-- Example ledger with no balances: `balances["A"]` is 0. -/
def tokenC6 : Token := Token.mkToken ("Tok") ("TK") 18 0

/-- A freshly constructed block for the mining witness. -/
def blockW : Block := Block.new Cex 0 0 (.plain ("w")) (zeros 64) 4 0 ("sg")

/-- The raw transfer dictionary of the forged-key counterexample. -/
def txF0 : TxData :=
  ⟨"token_transfer", kpF.public_key, "rc", 5, "TK", 7, none, none⟩

/-- The forged-key transfer dictionary after its first signature was
inserted — the string actually signed by the recording step. -/
def txF1 : TxData :=
  {txF0 with
    signature := some (KeyPair.sign Cex kpF (Cex.encodePayload (.transferTx txF0)))}

theorem lookupD_addD {α : Type} [DecidableEq α]
    (m : List (α × Int)) (k x : α) (d : Int) :
    lookupD (addD m k d) x = lookupD m x + (if x = k then d else 0) := by
  induction m with
  | nil =>
      by_cases h : x = k <;> simp [addD, lookupD, h]
  | cons kv rest ih =>
      obtain ⟨k', v⟩ := kv
      by_cases hc : k = k'
      · subst hc
        by_cases hx : x = k <;> simp [addD, lookupD, hx]
      · by_cases hx : x = k'
        · subst hx
          have hxk : ¬x = k := fun h => hc h.symm
          simp [addD, hc, lookupD, hxk]
        · simp [addD, hc, lookupD, hx, ih]

theorem sumD_addD {α : Type} [DecidableEq α]
    (m : List (α × Int)) (k : α) (d : Int) :
    sumD (addD m k d) = sumD m + d := by
  induction m with
  | nil => simp [addD, sumD]
  | cons kv rest ih =>
      obtain ⟨k', v⟩ := kv
      by_cases hc : k = k'
      · subst hc
        simp [addD, sumD]
        ring
      · simp [addD, hc, sumD] at ih ⊢
        omega

theorem lookupD_setD_self {α : Type} [DecidableEq α]
    (m : List (α × Int)) (k : α) (v : Int) :
    lookupD (setD m k v) k = v := by
  induction m with
  | nil => simp [setD, lookupD]
  | cons kv rest ih =>
      obtain ⟨k', w⟩ := kv
      by_cases hc : k = k'
      · subst hc
        simp [setD, lookupD]
      · simp [setD, hc, lookupD, ih]

theorem sumD_setD_nil {α : Type} [DecidableEq α] (k : α) (v : Int) :
    sumD (setD ([] : List (α × Int)) k v) = v := by
  simp [setD, sumD]

theorem allNonnegD_iff {α : Type} (m : List (α × Int)) :
    allNonnegD m = true ↔ NonnegEntries m := by
  simp [allNonnegD, NonnegEntries, List.all_eq_true, decide_eq_true_iff]

theorem lookupD_nonneg {α : Type} [DecidableEq α]
    (m : List (α × Int)) (h : NonnegEntries m) (k : α) :
    0 ≤ lookupD m k := by
  induction m with
  | nil => simp [lookupD]
  | cons kv rest ih =>
      obtain ⟨k', v⟩ := kv
      by_cases hk : k = k'
      · simpa [lookupD, hk] using h (k', v) (List.mem_cons_self _ _)
      · simp only [lookupD, hk, if_false]
        exact ih (fun p hp => h p (List.mem_cons_of_mem _ hp))

theorem nonnegEntries_addD {α : Type} [DecidableEq α]
    (m : List (α × Int)) (k : α) (d : Int)
    (h : NonnegEntries m) (hd : 0 ≤ lookupD m k + d) :
    NonnegEntries (addD m k d) := by
  induction m with
  | nil =>
      simp [lookupD] at hd
      intro p hp
      simp [addD] at hp
      simp [hp, hd]
  | cons kv rest ih =>
      obtain ⟨k', v⟩ := kv
      by_cases hc : k = k'
      · subst hc
        simp [lookupD] at hd
        intro p hp
        simp [addD] at hp
        rcases hp with hp | hp
        · simp [hp]; omega
        · exact h p (List.mem_cons_of_mem _ hp)
      · simp [lookupD, fun h => hc h] at hd
        intro p hp
        simp [addD, hc] at hp
        rcases hp with hp | hp
        · exact hp ▸ h (k', v) (List.mem_cons_self _ _)
        · exact ih (fun q hq => h q (List.mem_cons_of_mem _ hq)) hd p hp

/-! ## Mining and append lemmas -/

theorem Block.new_hash (C : CryptoModel) (i t : Nat) (p : Payload)
    (ph : String) (d n : Nat) (s : String) :
    (Block.new C i t p ph d n s).hash = calcHash C (Block.new C i t p ph d n s) := rfl

/-- Specification of the mining loop: a returned block meets the target,
keeps the recompute invariant, and differs from the input only in `nonce`
and `hash`. -/
theorem mine_block_spec (C : CryptoModel) (d : Nat) :
    ∀ (fuel : Nat) (b b' : Block), Block.mine_block C d fuel b = some b' →
      leadingZeros d b'.hash = true
      ∧ (b.hash = calcHash C b → b'.hash = calcHash C b')
      ∧ b'.index = b.index ∧ b'.timestamp = b.timestamp ∧ b'.data = b.data
      ∧ b'.previous_hash = b.previous_hash ∧ b'.signature = b.signature
      ∧ b'.difficulty = b.difficulty := by
  intro fuel
  induction fuel with
  | zero =>
      intro b b' h
      by_cases hl : leadingZeros d b.hash = true
      · simp [Block.mine_block, hl] at h
        subst h
        exact ⟨hl, fun hh => hh, rfl, rfl, rfl, rfl, rfl, rfl⟩
      · simp [Block.mine_block, hl] at h
  | succ n ih =>
      intro b b' h
      by_cases hl : leadingZeros d b.hash = true
      · simp [Block.mine_block, hl] at h
        subst h
        exact ⟨hl, fun hh => hh, rfl, rfl, rfl, rfl, rfl, rfl⟩
      · simp only [Block.mine_block, hl, if_false] at h
        have spec := ih _ _ h
        refine ⟨spec.1, fun _ => spec.2.1 rfl, spec.2.2.1, spec.2.2.2.1,
          spec.2.2.2.2.1, spec.2.2.2.2.2.1, spec.2.2.2.2.2.2.1,
          spec.2.2.2.2.2.2.2⟩

/-- What `add_block` does to the three state components when it returns. -/
theorem add_block_effect (C : CryptoModel) (fuel now : Nat) (bc : Blockchain)
    (data : Payload) (kp : Option KeyPair) (rs : String) (b : Block)
    (bc' : Blockchain)
    (h : Blockchain.add_block C fuel now bc data kp rs = some (b, bc')) :
    bc'.chain = bc.chain ++ [b] ∧ bc'.difficulty = bc.difficulty
    ∧ bc'.token = bc.token ∧ leadingZeros bc.difficulty b.hash = true
    ∧ b.hash = calcHash C b
    ∧ (∃ lastB, bc.chain.getLast? = some lastB ∧ b.previous_hash = lastB.hash) := by
  unfold Blockchain.add_block at h
  cases hl : bc.chain.getLast? with
  | none => rw [hl] at h; exact absurd h (by simp)
  | some lastB =>
      rw [hl] at h
      simp only [Option.map_eq_some'] at h
      obtain ⟨mb, hmine, heq⟩ := h
      injection heq with hb hbc
      subst hb
      subst hbc
      have spec := mine_block_spec C bc.difficulty fuel _ _ hmine
      refine ⟨rfl, rfl, rfl, spec.1, spec.2.1 rfl, lastB, rfl, ?_⟩
      rw [spec.2.2.2.2.2.1]
      rfl

theorem getLast?_cons_eq (a : Block) (l : List Block) :
    (a :: l).getLast? = some (lastOf a l) := by
  induction l generalizing a with
  | nil => simp [lastOf]
  | cons x xs ih =>
      rw [List.getLast?_cons_cons, ih x]
      simp [lastOf, ih x]

theorem checkFrom_append (C : CryptoModel) (d : Nat) (l : List Block)
    (prev b : Block) :
    checkFrom C d prev (l ++ [b])
      = (checkFrom C d prev l && blockOk C d (lastOf prev l) b) := by
  induction l generalizing prev with
  | nil => simp [checkFrom, lastOf]
  | cons x xs ih =>
      have hlast : lastOf prev (x :: xs) = lastOf x xs := by
        simp [lastOf, getLast?_cons_eq x xs]
      show (blockOk C d prev x && checkFrom C d x (xs ++ [b]))
        = ((blockOk C d prev x && checkFrom C d x xs)
            && blockOk C d (lastOf prev (x :: xs)) b)
      rw [ih x, hlast, Bool.and_assoc]

theorem is_chain_valid_token_irrelevant (C : CryptoModel) (bc : Blockchain)
    (t : Token) :
    Blockchain.is_chain_valid C {bc with token := t}
      = Blockchain.is_chain_valid C bc := rfl

theorem init_chain_inv (C : CryptoModel) (fuel d : Nat) (tn ts : String)
    (sup : Int) (priv gbits : String) (t0 : Nat) (iso : String)
    (bc : Blockchain)
    (h : Blockchain.init C fuel d tn ts sup priv gbits t0 iso = some bc) :
    ChainInv C bc := by
  unfold Blockchain.init at h
  simp only [Option.map_eq_some'] at h
  obtain ⟨g, _, hbc⟩ := h
  constructor
  · rw [← hbc]; simp
  · rw [← hbc]; simp [Blockchain.is_chain_valid, checkFrom]

theorem add_block_chain_inv (C : CryptoModel) (fuel now : Nat)
    (bc : Blockchain) (data : Payload) (kp : Option KeyPair) (rs : String)
    (b : Block) (bc' : Blockchain) (hinv : ChainInv C bc)
    (h : Blockchain.add_block C fuel now bc data kp rs = some (b, bc')) :
    ChainInv C bc' := by
  obtain ⟨hchain, hdiff, _, hpow, hhash, lastB, hlast, hprev⟩ := add_block_effect C fuel now bc data kp rs b bc' h
  obtain ⟨hne, hvalid⟩ := hinv
  cases hc : bc.chain with
  | nil => exact absurd hc hne
  | cons g rest =>
      constructor
      · rw [hchain, hc]; simp
      · have hlast' : lastB = lastOf g rest := by
          rw [hc, getLast?_cons_eq] at hlast
          exact (Option.some.injEq .. ▸ hlast).symm
        have hvalid' : checkFrom C bc.difficulty g rest = true := by
          rw [Blockchain.is_chain_valid, hc] at hvalid
          exact hvalid
        show Blockchain.is_chain_valid C bc' = true
        rw [Blockchain.is_chain_valid]
        rw [hchain, hc, hdiff]
        show checkFrom C bc.difficulty g (rest ++ [b]) = true
        rw [checkFrom_append, hvalid', Bool.true_and, blockOk]
        have h1 : (b.hash == calcHash C b) = true := beq_iff_eq.mpr hhash
        have h2 : (b.previous_hash == (lastOf g rest).hash) = true := by
          rw [hprev, hlast']
          exact beq_iff_eq.mpr rfl
        rw [h1, h2, hpow]
        rfl

/-- `recordOp` keeps the token and difficulty, never shrinks the chain,
and always reports success. -/
theorem recordOp_effect (C : CryptoModel) (fuel now : Nat)
    (bc1 : Blockchain) (p : Payload) (kp : KeyPair) :
    (recordOp C fuel now bc1 p kp).2.token = bc1.token
    ∧ (recordOp C fuel now bc1 p kp).2.difficulty = bc1.difficulty
    ∧ bc1.chain.length ≤ (recordOp C fuel now bc1 p kp).2.chain.length
    ∧ (recordOp C fuel now bc1 p kp).1.success = true := by
  unfold recordOp
  cases hadd : Blockchain.add_block C fuel now bc1 p (some kp) ("") with
  | none => exact ⟨rfl, rfl, Nat.le_refl _, rfl⟩
  | some pr =>
      obtain ⟨b, bc2⟩ := pr
      obtain ⟨hchain, hdiff, htok, _⟩ := add_block_effect C fuel now bc1 p (some kp) ("") b bc2 hadd
      exact ⟨htok, hdiff, by simp [hchain], rfl⟩

theorem recordOp_chain_inv (C : CryptoModel) (fuel now : Nat)
    (bc1 : Blockchain) (p : Payload) (kp : KeyPair)
    (hinv : ChainInv C bc1) :
    ChainInv C (recordOp C fuel now bc1 p kp).2 := by
  unfold recordOp
  cases hadd : Blockchain.add_block C fuel now bc1 p (some kp) ("") with
  | none => exact hinv
  | some pr =>
      obtain ⟨b, bc2⟩ := pr
      exact add_block_chain_inv C fuel now bc1 p (some kp) ("") b bc2 hinv hadd

theorem transfer_token_chain_inv (C : CryptoModel) (fuel now : Nat)
    (bc : Blockchain) (kp : KeyPair) (r : String) (a : Int)
    (hinv : ChainInv C bc) :
    ChainInv C (Blockchain.transfer_token C fuel now bc kp r a).2 := by
  unfold Blockchain.transfer_token
  by_cases hb : lookupD bc.token.balances kp.public_key < a
  · simpa [hb] using hinv
  · simp only [hb, if_false]
    by_cases hok : (Token.transfer bc.token kp.public_key r a).1 = false
    · simpa [hok] using (⟨hinv.1, hinv.2⟩ : ChainInv C _)
    · simp only [hok, if_false]
      exact recordOp_chain_inv C fuel now _ _ kp ⟨hinv.1, hinv.2⟩

theorem mint_tokens_chain_inv (C : CryptoModel) (fuel now : Nat)
    (bc : Blockchain) (kp : KeyPair) (r : String) (a : Int)
    (hinv : ChainInv C bc) :
    ChainInv C (Blockchain.mint_tokens C fuel now bc kp r a).2 := by
  unfold Blockchain.mint_tokens
  by_cases hauth : ((bc.chain.head?.map Block.data).bind Payload.creatorAddress)
      ≠ some kp.public_key
  · simpa [hauth] using hinv
  · simp only [hauth, if_false, ite_false, if_neg]
    exact recordOp_chain_inv C fuel now _ _ kp ⟨hinv.1, hinv.2⟩

/-- Every state reachable by the normal append protocol has a non-empty,
valid chain. -/
theorem produced_chain_inv (C : CryptoModel) (bc : Blockchain)
    (hp : Produced C bc) : ChainInv C bc := by
  induction hp with
  | init fuel d tn ts sup priv gbits t0 iso bc h =>
      exact init_chain_inv C fuel d tn ts sup priv gbits t0 iso bc h
  | addBlock fuel now bc data kp rs b bc' hp h ih =>
      exact add_block_chain_inv C fuel now bc data kp rs b bc' ih h
  | transferTok fuel now bc kp r a res bc' hp h ih =>
      have := transfer_token_chain_inv C fuel now bc kp r a ih
      rwa [h] at this
  | mintTok fuel now bc kp r a res bc' hp h ih =>
      have := mint_tokens_chain_inv C fuel now bc kp r a ih
      rwa [h] at this

theorem checkFrom_get (C : CryptoModel) (d : Nat) :
    ∀ (l : List Block) (prev : Block), checkFrom C d prev l = true →
      ∀ j, j < l.length →
        blockOk C d (prevAt prev l j) (l.getD j blockDefault) = true := by
  intro l
  induction l with
  | nil => intro prev _ j hj; simp at hj
  | cons x xs ih =>
      intro prev h j hj
      rw [checkFrom, Bool.and_eq_true] at h
      cases j with
      | zero => simpa [prevAt] using h.1
      | succ k =>
          have hk : k < xs.length := by simpa using hj
          have hx := ih x h.2 k hk
          cases k with
          | zero => simpa [prevAt] using hx
          | succ m => simpa [prevAt] using hx

theorem checkFrom_set_false (C : CryptoModel) (d : Nat) :
    ∀ (l : List Block) (prev : Block) (j : Nat) (b' : Block), j < l.length →
      blockOk C d (prevAt prev l j) b' = false →
      checkFrom C d prev (l.set j b') = false := by
  intro l
  induction l with
  | nil => intro prev j b' hj; simp at hj
  | cons x xs ih =>
      intro prev j b' hj hbad
      cases j with
      | zero =>
          have hbad' : blockOk C d prev b' = false := by
            simpa [prevAt] using hbad
          show (blockOk C d prev b' && checkFrom C d b' xs) = false
          rw [hbad']
          rfl
      | succ k =>
          have hk : k < xs.length := by simpa using hj
          have hbad' : blockOk C d (prevAt x xs k) b' = false := by
            cases k with
            | zero => simpa [prevAt] using hbad
            | succ m => simpa [prevAt] using hbad
          have hrec := ih x k b' hk hbad'
          show (blockOk C d prev x && checkFrom C d x (xs.set k b')) = false
          rw [hrec]
          exact Bool.and_false _

theorem recordOp_conserves (C : CryptoModel) (fuel now : Nat)
    (bc1 : Blockchain) (p : Payload) (kp : KeyPair) (h : Conserves bc1) :
    Conserves (recordOp C fuel now bc1 p kp).2 := by
  have htok := (recordOp_effect C fuel now bc1 p kp).1
  rw [Conserves, htok]
  exact h

theorem token_transfer_conserves (t : Token) (s r : String) (a : Int)
    (h : sumD t.balances = t.total_supply) :
    sumD (Token.transfer t s r a).2.balances
      = (Token.transfer t s r a).2.total_supply := by
  unfold Token.transfer
  by_cases hb : lookupD t.balances s < a
  · simpa [hb] using h
  · simp only [hb, if_false]
    show sumD (addD (addD t.balances s (-a)) r a) = t.total_supply
    rw [sumD_addD, sumD_addD, h]
    ring

theorem token_transfer_from_conserves (t : Token) (sp o r : String) (a : Int)
    (h : sumD t.balances = t.total_supply) :
    sumD (Token.transfer_from t sp o r a).2.balances
      = (Token.transfer_from t sp o r a).2.total_supply := by
  unfold Token.transfer_from
  by_cases hb : lookupD t.balances o < a ∨ lookupD t.allowed (o, sp) < a
  · simpa [hb] using h
  · simp only [hb, if_false]
    show sumD (addD (addD t.balances o (-a)) r a) = t.total_supply
    rw [sumD_addD, sumD_addD, h]
    ring

theorem applyOp_conserves (C : CryptoModel) (fuel now : Nat)
    (bc : Blockchain) (op : LedgerOp) (h : Conserves bc) :
    Conserves (applyOp C fuel now bc op) := by
  cases op with
  | transfer s r a =>
      exact token_transfer_conserves bc.token s r a h
  | transferFrom sp o r a =>
      exact token_transfer_from_conserves bc.token sp o r a h
  | approve o sp a =>
      simpa [applyOp, Token.approve, Conserves] using h
  | mint kp r a =>
      show Conserves (Blockchain.mint_tokens C fuel now bc kp r a).2
      unfold Blockchain.mint_tokens
      by_cases hauth : ((bc.chain.head?.map Block.data).bind Payload.creatorAddress)
          ≠ some kp.public_key
      · simpa [hauth] using h
      · simp only [hauth, if_false, ite_false, if_neg]
        refine recordOp_conserves C fuel now _ _ kp ?_
        show sumD (addD bc.token.balances r a) = bc.token.total_supply + a
        rw [sumD_addD, h]

theorem applyOps_conserves (C : CryptoModel) (fuel now : Nat)
    (bc : Blockchain) (ops : List LedgerOp) (h : Conserves bc) :
    Conserves (applyOps C fuel now bc ops) := by
  induction ops generalizing bc with
  | nil => exact h
  | cons op rest ih =>
      exact ih (applyOp C fuel now bc op) (applyOp_conserves C fuel now bc op h)

theorem token_transfer_nonneg (t : Token) (s r : String) (a : Int)
    (h : NonnegEntries t.balances) (ha : 0 ≤ a) :
    NonnegEntries (Token.transfer t s r a).2.balances := by
  unfold Token.transfer
  by_cases hb : lookupD t.balances s < a
  · simpa [hb] using h
  · simp only [hb, if_false]
    show NonnegEntries (addD (addD t.balances s (-a)) r a)
    have h1 : NonnegEntries (addD t.balances s (-a)) :=
      nonnegEntries_addD t.balances s (-a) h (by omega)
    exact nonnegEntries_addD _ r a h1
      (by have := lookupD_nonneg _ h1 r; omega)

theorem token_transfer_from_nonneg (t : Token) (sp o r : String) (a : Int)
    (h : NonnegEntries t.balances) (ha : 0 ≤ a) :
    NonnegEntries (Token.transfer_from t sp o r a).2.balances := by
  unfold Token.transfer_from
  by_cases hb : lookupD t.balances o < a ∨ lookupD t.allowed (o, sp) < a
  · simpa [hb] using h
  · simp only [hb, if_false]
    show NonnegEntries (addD (addD t.balances o (-a)) r a)
    have ho : ¬lookupD t.balances o < a := fun hlt => hb (Or.inl hlt)
    have h1 : NonnegEntries (addD t.balances o (-a)) :=
      nonnegEntries_addD t.balances o (-a) h (by omega)
    exact nonnegEntries_addD _ r a h1
      (by have := lookupD_nonneg _ h1 r; omega)

theorem recordOp_balNonneg (C : CryptoModel) (fuel now : Nat)
    (bc1 : Blockchain) (p : Payload) (kp : KeyPair) (h : BalNonneg bc1) :
    BalNonneg (recordOp C fuel now bc1 p kp).2 := by
  have htok := (recordOp_effect C fuel now bc1 p kp).1
  rw [BalNonneg, htok]
  exact h

theorem applyOp_balNonneg (C : CryptoModel) (fuel now : Nat)
    (bc : Blockchain) (op : LedgerOp) (h : BalNonneg bc)
    (ha : 0 ≤ op.amount) :
    BalNonneg (applyOp C fuel now bc op) := by
  cases op with
  | transfer s r a =>
      exact token_transfer_nonneg bc.token s r a h ha
  | transferFrom sp o r a =>
      exact token_transfer_from_nonneg bc.token sp o r a h ha
  | approve o sp a =>
      simpa [applyOp, Token.approve, BalNonneg] using h
  | mint kp r a =>
      show BalNonneg (Blockchain.mint_tokens C fuel now bc kp r a).2
      unfold Blockchain.mint_tokens
      by_cases hauth : ((bc.chain.head?.map Block.data).bind Payload.creatorAddress)
          ≠ some kp.public_key
      · simpa [hauth] using h
      · simp only [hauth, if_false, ite_false, if_neg]
        refine recordOp_balNonneg C fuel now _ _ kp ?_
        show NonnegEntries (addD bc.token.balances r a)
        exact nonnegEntries_addD _ r a h
          (by have := lookupD_nonneg _ h r
              have ha' : (0 : Int) ≤ a := ha
              omega)

theorem applyOps_balNonneg (C : CryptoModel) (fuel now : Nat)
    (bc : Blockchain) (ops : List LedgerOp) (h : BalNonneg bc)
    (ha : ∀ op ∈ ops, 0 ≤ LedgerOp.amount op) :
    BalNonneg (applyOps C fuel now bc ops) := by
  induction ops generalizing bc with
  | nil => exact h
  | cons op rest ih =>
      exact ih (applyOp C fuel now bc op)
        (applyOp_balNonneg C fuel now bc op h (ha op (List.mem_cons_self _ _)))
        (fun q hq => ha q (List.mem_cons_of_mem _ hq))

/-- What `add_block` records when called with a keypair: the block's
signature is the keypair's signature over the canonical encoding of the
payload as passed in, and the stored data is that payload with
`public_key`/`signature` added. -/
theorem add_block_signed (C : CryptoModel) (fuel now : Nat)
    (bc1 : Blockchain) (p : Payload) (kp : KeyPair) (rs : String)
    (b : Block) (bc' : Blockchain)
    (h : Blockchain.add_block C fuel now bc1 p (some kp) rs = some (b, bc')) :
    b.signature = KeyPair.sign C kp (C.encodePayload p)
    ∧ b.data = Payload.withKeySig p kp.public_key
        (KeyPair.sign C kp (C.encodePayload p))
    ∧ bc'.chain = bc1.chain ++ [b] := by
  unfold Blockchain.add_block at h
  cases hl : bc1.chain.getLast? with
  | none => rw [hl] at h; exact absurd h (by simp)
  | some lastB =>
      rw [hl] at h
      simp only [Option.map_eq_some'] at h
      obtain ⟨mb, hmine, heq⟩ := h
      injection heq with hb hbc
      subst hb
      subst hbc
      have spec := mine_block_spec C bc1.difficulty fuel _ _ hmine
      refine ⟨?_, ?_, rfl⟩
      · rw [spec.2.2.2.2.2.2.1]
        rfl
      · rw [spec.2.2.2.2.1]
        rfl

theorem getLast?_append_single {α : Type} (l : List α) (x : α) :
    (l ++ [x]).getLast? = some x := by
  induction l with
  | nil => rfl
  | cons a as ih =>
      cases as with
      | nil => rfl
      | cons b bs => simpa using ih

theorem last_block_isSome (bc : Blockchain) (h : bc.chain ≠ []) :
    (Blockchain.last_block bc).isSome = true := by
  unfold Blockchain.last_block
  cases hc : bc.chain with
  | nil => exact absurd hc h
  | cons g rest => rw [getLast?_cons_eq]; rfl

theorem recordOp_chain_ne (C : CryptoModel) (fuel now : Nat)
    (bc1 : Blockchain) (p : Payload) (kp : KeyPair) (h : bc1.chain ≠ []) :
    (recordOp C fuel now bc1 p kp).2.chain ≠ [] := by
  unfold recordOp
  cases hadd : Blockchain.add_block C fuel now bc1 p (some kp) ("") with
  | none => exact h
  | some pr =>
      obtain ⟨b, bc2⟩ := pr
      have heff := (add_block_effect C fuel now bc1 p (some kp) ("") b bc2 hadd).1
      show bc2.chain ≠ []
      rw [heff]
      simp

theorem transfer_token_chain_ne (C : CryptoModel) (fuel now : Nat)
    (bc : Blockchain) (kp : KeyPair) (r : String) (a : Int)
    (h : bc.chain ≠ []) :
    (Blockchain.transfer_token C fuel now bc kp r a).2.chain ≠ [] := by
  unfold Blockchain.transfer_token
  by_cases hb : lookupD bc.token.balances kp.public_key < a
  · simpa [hb] using h
  · simp only [hb, if_false]
    by_cases hok : (Token.transfer bc.token kp.public_key r a).1 = false
    · simpa [hok] using h
    · simp only [hok, if_false]
      exact recordOp_chain_ne C fuel now _ _ kp h

theorem mint_tokens_chain_ne (C : CryptoModel) (fuel now : Nat)
    (bc : Blockchain) (kp : KeyPair) (r : String) (a : Int)
    (h : bc.chain ≠ []) :
    (Blockchain.mint_tokens C fuel now bc kp r a).2.chain ≠ [] := by
  unfold Blockchain.mint_tokens
  by_cases hauth : ((bc.chain.head?.map Block.data).bind Payload.creatorAddress)
      ≠ some kp.public_key
  · simpa [hauth] using h
  · simp only [hauth, if_false, ite_false, if_neg]
    exact recordOp_chain_ne C fuel now _ _ kp h

theorem resolve_conflicts_chain_ne (C : CryptoModel) (bc : Blockchain)
    (chains : List (List BlockDict)) (h : bc.chain ≠ []) :
    (Blockchain.resolve_conflicts C bc chains).2.chain ≠ [] := by
  unfold Blockchain.resolve_conflicts
  cases hr : (resolveLoop C bc.difficulty chains bc.chain.length none).2 with
  | none => exact h
  | some nc =>
      by_cases he : nc.isEmpty = true
      · simpa [he] using h
      · simp only [he, if_false, ite_false]
        show nc ≠ []
        simpa using he

set_option maxRecDepth 40000 in
/-- C4 (code bug): `resolve_conflicts` adopts the strictly longer valid
candidate and replaces the local chain, but leaves the token ledger
untouched — the creator's stale balance of 100 survives although the
adopted chain records no distribution.  The claim (and spec §3/§4.6/§9)
requires the ledger to be recomputed by replaying the adopted chain. -/
theorem resolve_conflicts_keeps_stale_ledger :
    (Blockchain.resolve_conflicts Cex bcG [candChainEx]).1 = true
    ∧ (Blockchain.resolve_conflicts Cex bcG [candChainEx]).2.chain
        = candChainEx.map (BlockDict.toBlock Cex)
    ∧ (Blockchain.resolve_conflicts Cex bcG [candChainEx]).2.chain ≠ bcG.chain
    ∧ (Blockchain.resolve_conflicts Cex bcG [candChainEx]).2.token = bcG.token
    ∧ lookupD (Blockchain.resolve_conflicts Cex bcG
        [candChainEx]).2.token.balances kpA.public_key = 100 := by
  decide

set_option maxRecDepth 100000 in
/-- C5 (code bug): `secure_hash` draws a fresh 16-byte salt from
`os.urandom` on every invocation; with the salt explicit, two runs on the
same input differ whenever the salts differ, so the function is not
two-run deterministic as the hash contract requires. -/
theorem secure_hash_two_runs_differ :
    secure_hash hashStrEx ("abc") ("s0") ≠ secure_hash hashStrEx ("abc") ("s1") := by
  decide

/-- C6 (counterexample): the claim requires `transfer` to fail with
`InvalidAmount` on a non-positive amount; the code accepts a transfer of
-1 from a zero-balance sender and drives the recipient negative. -/
theorem transfer_negative_amount_accepted :
    (Token.transfer tokenC6 ("A") ("B") (-1)).1 = true
    ∧ lookupD (Token.transfer tokenC6 ("A") ("B") (-1)).2.balances ("B") = -1 := by
  exact ⟨by decide, by decide⟩

/-- C6 (amended): `transfer` fails exactly when the sender's balance is
below the amount — there is no positivity check, zero and negative amounts
included — and on failure the ledger is untouched; on success the sender is
debited and the recipient credited by the amount, atomically, with every
other balance and every other ledger field unchanged. -/
theorem transfer_contract (t : Token) (s r : String) (a : Int) :
    ((Token.transfer t s r a).1 = false ↔ lookupD t.balances s < a)
    ∧ ((Token.transfer t s r a).1 = false → (Token.transfer t s r a).2 = t)
    ∧ ((Token.transfer t s r a).1 = true →
        (∀ x : String, lookupD (Token.transfer t s r a).2.balances x
          = lookupD t.balances x
            + (if x = r then a else 0) - (if x = s then a else 0))
        ∧ (Token.transfer t s r a).2.total_supply = t.total_supply
        ∧ (Token.transfer t s r a).2.allowed = t.allowed
        ∧ (Token.transfer t s r a).2.name = t.name
        ∧ (Token.transfer t s r a).2.symbol = t.symbol) := by
  by_cases hb : lookupD t.balances s < a
  · have hred : Token.transfer t s r a = (false, t) := by
      unfold Token.transfer
      rw [if_pos hb]
    rw [hred]
    refine ⟨⟨fun _ => hb, fun _ => rfl⟩, fun _ => rfl,
      fun hf => absurd hf (by simp)⟩
  · have hred : Token.transfer t s r a
        = (true, {t with balances := addD (addD t.balances s (-a)) r a}) := by
      unfold Token.transfer
      rw [if_neg hb]
    rw [hred]
    refine ⟨⟨fun hf => absurd hf (by simp), fun hlt => absurd hlt hb⟩,
      fun hf => absurd hf (by simp), fun _ => ⟨?_, rfl, rfl, rfl, rfl⟩⟩
    intro x
    show lookupD (addD (addD t.balances s (-a)) r a) x = _
    rw [lookupD_addD, lookupD_addD]
    split_ifs <;> omega

/-- C6 (witness): a transfer of 5 from the empty ledger fails and leaves
the ledger unchanged, by the amended contract. -/
theorem transfer_contract_witness :
    (Token.transfer tokenC6 ("A") ("B") 5).1 = false
    ∧ (Token.transfer tokenC6 ("A") ("B") 5).2 = tokenC6 := by
  have h := transfer_contract tokenC6 ("A") ("B") 5
  exact ⟨h.1.mpr (by decide), h.2.1 (h.1.mpr (by decide))⟩

/-- C9: whenever the mining loop returns a block, that block's hash meets
the difficulty target and equals the hash recomputed from the block's own
fields (given the constructor invariant at entry), and only the nonce and
hash fields were modified — index, timestamp, payload, previous hash,
signature and the stored difficulty are unchanged; the loop reads and
writes no chain state. -/
theorem mine_block_contract (C : CryptoModel) (d fuel : Nat) (b b' : Block)
    (hinv : b.hash = calcHash C b)
    (h : Block.mine_block C d fuel b = some b') :
    leadingZeros d b'.hash = true
    ∧ b'.hash = calcHash C b'
    ∧ b'.index = b.index ∧ b'.timestamp = b.timestamp ∧ b'.data = b.data
    ∧ b'.previous_hash = b.previous_hash ∧ b'.signature = b.signature
    ∧ b'.difficulty = b.difficulty := by
  have spec := mine_block_spec C d fuel b b' h
  exact ⟨spec.1, spec.2.1 hinv, spec.2.2.1, spec.2.2.2.1, spec.2.2.2.2.1,
    spec.2.2.2.2.2.1, spec.2.2.2.2.2.2.1, spec.2.2.2.2.2.2.2⟩

/-- C9 (witness): at difficulty 0 the loop returns at once and the
contract evaluates on the concrete block. -/
theorem mine_block_contract_witness :
    Block.mine_block Cex 0 2 blockW = some blockW
    ∧ leadingZeros 0 blockW.hash = true
    ∧ blockW.hash = calcHash Cex blockW := by
  have h : Block.mine_block Cex 0 2 blockW = some blockW := by decide
  have spec := mine_block_contract Cex 0 2 blockW blockW rfl h
  exact ⟨h, spec.1, spec.2.1⟩

set_option maxRecDepth 40000 in
/-- The two-block example chain is produced by the normal append protocol
(constructor followed by one `add_block`). -/
theorem produced_bc2 : Produced Cex bc2 := by
  cases hg : bcG? with
  | none =>
      have hi : bcG?.isSome = true := by decide
      rw [hg] at hi
      exact absurd hi (by simp)
  | some bc0 =>
      have hbase : Produced Cex bc0 :=
        Produced.init 1 0 ("Tok") ("TK") 100 privA ("1") 0 ("iso") bc0 hg
      cases ha : Blockchain.add_block Cex 1 1 bc0 (.plain ("x")) none ("rs") with
      | none =>
          have hs2 : step2? = none := by
            unfold step2?
            rw [hg]
            exact ha
          have hi : step2?.isSome = true := by decide
          rw [hs2] at hi
          exact absurd hi (by simp)
      | some pr =>
          have hs2 : step2? = some pr := by
            unfold step2?
            rw [hg]
            exact ha
          have hstep : Produced Cex pr.2 :=
            Produced.addBlock 1 1 bc0 (.plain ("x")) none ("rs") pr.1 pr.2
              hbase (by rw [ha])
          have hbc2 : bc2 = pr.2 := by
            unfold bc2
            rw [hs2]
            rfl
          rw [hbc2]
          exact hstep

/-- C1 (amended): for every chain produced by the normal append protocol,
`is_chain_valid` is true; and changing any single stored field — payload,
nonce, previous hash, or hash — of any block at index `i ≥ 1` makes
`is_chain_valid` false (for payload and nonce changes, under the
collision-freedom hypothesis that the recomputed digest of the altered
block differs from the stored hash).  The genesis block at index 0 is
excluded: its fields are never rechecked (see the counterexample). -/
theorem chain_validity_tamper_detection (C : CryptoModel) (bc : Blockchain)
    (hp : Produced C bc) (i : Nat) (h1 : 1 ≤ i) (h2 : i < bc.chain.length) :
    Blockchain.is_chain_valid C bc = true
    ∧ (∀ p : Payload,
        C.hashCore {(bc.chain.getD i blockDefault).core with data := p}
          ≠ (bc.chain.getD i blockDefault).hash →
        Blockchain.is_chain_valid C (setDataAt bc i p) = false)
    ∧ (∀ n : Nat,
        C.hashCore {(bc.chain.getD i blockDefault).core with nonce := n}
          ≠ (bc.chain.getD i blockDefault).hash →
        Blockchain.is_chain_valid C (setNonceAt bc i n) = false)
    ∧ (∀ q : String, q ≠ (bc.chain.getD i blockDefault).previous_hash →
        Blockchain.is_chain_valid C (setPrevHashAt bc i q) = false)
    ∧ (∀ s : String, s ≠ (bc.chain.getD i blockDefault).hash →
        Blockchain.is_chain_valid C (setHashAt bc i s) = false) := by
  obtain ⟨hne, hvalid⟩ := produced_chain_inv C bc hp
  obtain ⟨g, rest, hc⟩ : ∃ g rest, bc.chain = g :: rest := by
    cases hcc : bc.chain with
    | nil => exact absurd hcc hne
    | cons g rest => exact ⟨g, rest, rfl⟩
  obtain ⟨j, rfl⟩ : ∃ j, i = j + 1 := ⟨i - 1, by omega⟩
  have hjlen : j < rest.length := by
    rw [hc] at h2
    simpa using h2
  have hgd : bc.chain.getD (j + 1) blockDefault = rest.getD j blockDefault := by
    rw [hc]
    simp
  have hcheck : checkFrom C bc.difficulty g rest = true := by
    have h := hvalid
    unfold Blockchain.is_chain_valid at h
    rw [hc] at h
    exact h
  have hpair := checkFrom_get C bc.difficulty rest g hcheck j hjlen
  simp only [blockOk] at hpair
  rw [Bool.and_eq_true, Bool.and_eq_true] at hpair
  obtain ⟨⟨hA, hB⟩, hC⟩ := hpair
  have hAeq : (rest.getD j blockDefault).hash
      = calcHash C (rest.getD j blockDefault) := beq_iff_eq.mp hA
  have hBeq : (rest.getD j blockDefault).previous_hash
      = (prevAt g rest j).hash := beq_iff_eq.mp hB
  refine ⟨hvalid, ?_, ?_, ?_, ?_⟩
  · intro p hp1
    rw [hgd] at hp1
    unfold setDataAt
    rw [hgd, hc]
    show checkFrom C bc.difficulty g
      (rest.set j {rest.getD j blockDefault with data := p}) = false
    apply checkFrom_set_false C bc.difficulty rest g j _ hjlen
    have hfalse : (({rest.getD j blockDefault with data := p} : Block).hash
        == calcHash C {rest.getD j blockDefault with data := p}) = false := by
      refine beq_eq_false_iff_ne.mpr (fun he => hp1 ?_)
      exact he.symm
    unfold blockOk
    rw [hfalse, Bool.false_and, Bool.false_and]
  · intro n hn1
    rw [hgd] at hn1
    unfold setNonceAt
    rw [hgd, hc]
    show checkFrom C bc.difficulty g
      (rest.set j {rest.getD j blockDefault with nonce := n}) = false
    apply checkFrom_set_false C bc.difficulty rest g j _ hjlen
    have hfalse : (({rest.getD j blockDefault with nonce := n} : Block).hash
        == calcHash C {rest.getD j blockDefault with nonce := n}) = false := by
      refine beq_eq_false_iff_ne.mpr (fun he => hn1 ?_)
      exact he.symm
    unfold blockOk
    rw [hfalse, Bool.false_and, Bool.false_and]
  · intro q hq
    rw [hgd] at hq
    unfold setPrevHashAt
    rw [hgd, hc]
    show checkFrom C bc.difficulty g
      (rest.set j {rest.getD j blockDefault with previous_hash := q}) = false
    apply checkFrom_set_false C bc.difficulty rest g j _ hjlen
    have hfalse : (({rest.getD j blockDefault with previous_hash := q} : Block).previous_hash
        == (prevAt g rest j).hash) = false := by
      refine beq_eq_false_iff_ne.mpr (fun he => hq ?_)
      exact he.trans hBeq.symm
    unfold blockOk
    rw [hfalse, Bool.and_false, Bool.false_and]
  · intro s hs
    rw [hgd] at hs
    unfold setHashAt
    rw [hgd, hc]
    show checkFrom C bc.difficulty g
      (rest.set j {rest.getD j blockDefault with hash := s}) = false
    apply checkFrom_set_false C bc.difficulty rest g j _ hjlen
    have hfalse : (({rest.getD j blockDefault with hash := s} : Block).hash
        == calcHash C {rest.getD j blockDefault with hash := s}) = false := by
      refine beq_eq_false_iff_ne.mpr (fun he => hs ?_)
      exact he.trans hAeq.symm
    unfold blockOk
    rw [hfalse, Bool.false_and, Bool.false_and]

set_option maxRecDepth 40000 in
/-- C1 (counterexample): on a chain produced by the normal append protocol
(two blocks at difficulty 0), replacing the genesis block's stored payload
with a different payload leaves `is_chain_valid` true — the loop starts at
index 1 and never rechecks the genesis block's own hash, so the claim's
"including the genesis block at index 0" fails. -/
theorem genesis_tamper_undetected :
    (Payload.plain ("evil")) ≠ (bc2.chain.getD 0 blockDefault).data
    ∧ Blockchain.is_chain_valid Cex (setDataAt bc2 0 (.plain ("evil"))) = true
    ∧ Blockchain.is_chain_valid Cex bc2 = true := by
  refine ⟨by decide, by decide, by decide⟩

set_option maxRecDepth 40000 in
/-- C1 (witness): on the concrete two-block protocol chain, validity holds,
and tampering with block 1's stored hash or previous hash is detected. -/
theorem chain_validity_tamper_detection_witness :
    Blockchain.is_chain_valid Cex bc2 = true
    ∧ Blockchain.is_chain_valid Cex (setHashAt bc2 1 (zeros 3)) = false
    ∧ Blockchain.is_chain_valid Cex (setPrevHashAt bc2 1 (zeros 5)) = false
    ∧ Blockchain.is_chain_valid Cex (setDataAt bc2 1 (.plain ("tam"))) = false := by
  have h := chain_validity_tamper_detection Cex bc2 produced_bc2 1
    (by decide) (by decide)
  exact ⟨h.1, h.2.2.2.2 (zeros 3) (by decide),
    h.2.2.2.1 (zeros 5) (by decide),
    h.2.1 (.plain ("tam")) (by decide)⟩

set_option maxRecDepth 40000 in
/-- The example constructor call evaluates to the example chain. -/
theorem init_bcG :
    Blockchain.init Cex 1 0 ("Tok") ("TK") 100 privA ("1") 0 ("iso")
      = some bcG := by
  decide

/-- C2: starting from the initial distribution of a freshly constructed
chain, every sequence of ledger operations (transfer, transfer_from,
approve, mint) with arbitrary integer amounts keeps the sum of all balance
values equal to `total_supply`. -/
theorem supply_conservation (C : CryptoModel) (fuelI d : Nat)
    (tn ts : String) (sup : Int) (priv gbits : String) (t0 : Nat)
    (iso : String) (bc : Blockchain)
    (hinit : Blockchain.init C fuelI d tn ts sup priv gbits t0 iso = some bc)
    (fuel now : Nat) (ops : List LedgerOp) :
    sumD (applyOps C fuel now bc ops).token.balances
      = (applyOps C fuel now bc ops).token.total_supply := by
  have h0 : Conserves bc := by
    unfold Blockchain.init at hinit
    simp only [Option.map_eq_some'] at hinit
    obtain ⟨g, _, hbc⟩ := hinit
    rw [Conserves, ← hbc]
    show sumD (setD ([] : List (String × Int))
      (KeyPair.create C priv).public_key sup) = sup
    exact sumD_setD_nil _ _
  exact applyOps_conserves C fuel now bc ops h0

set_option maxRecDepth 40000 in
/-- C2 (witness): the conservation theorem evaluated on the concrete chain
and a four-operation sequence. -/
theorem supply_conservation_witness :
    sumD (applyOps Cex 1 5 bcG
      [LedgerOp.transfer kpA.public_key ("u1") 30,
       LedgerOp.approve kpA.public_key ("u1") 4,
       LedgerOp.transferFrom ("u1") kpA.public_key ("u2") 4,
       LedgerOp.mint kpA ("u3") 7]).token.balances
      = (applyOps Cex 1 5 bcG
      [LedgerOp.transfer kpA.public_key ("u1") 30,
       LedgerOp.approve kpA.public_key ("u1") 4,
       LedgerOp.transferFrom ("u1") kpA.public_key ("u2") 4,
       LedgerOp.mint kpA ("u3") 7]).token.total_supply :=
  supply_conservation Cex 1 0 ("Tok") ("TK") 100 privA ("1") 0 ("iso") bcG
    init_bcG 1 5
    [LedgerOp.transfer kpA.public_key ("u1") 30,
     LedgerOp.approve kpA.public_key ("u1") 4,
     LedgerOp.transferFrom ("u1") kpA.public_key ("u2") 4,
     LedgerOp.mint kpA ("u3") 7]

/-- C7: minting with an authority keypair whose address differs from the
creator address recorded in the genesis block fails and changes nothing;
with the matching address, the total supply and the recipient's balance
increase by exactly the amount (all other balances unchanged) and the
call reports success. -/
theorem mint_authorization (C : CryptoModel) (fuel now : Nat)
    (bc : Blockchain) (kp : KeyPair) (r : String) (a : Int) :
    (((bc.chain.head?.map Block.data).bind Payload.creatorAddress)
        ≠ some kp.public_key →
      Blockchain.mint_tokens C fuel now bc kp r a
        = (⟨false, none⟩, bc))
    ∧ (((bc.chain.head?.map Block.data).bind Payload.creatorAddress)
        = some kp.public_key →
      (Blockchain.mint_tokens C fuel now bc kp r a).2.token.total_supply
        = bc.token.total_supply + a
      ∧ lookupD (Blockchain.mint_tokens C fuel now bc kp r a).2.token.balances r
        = lookupD bc.token.balances r + a
      ∧ (∀ x, x ≠ r →
          lookupD (Blockchain.mint_tokens C fuel now bc kp r a).2.token.balances x
          = lookupD bc.token.balances x)
      ∧ (Blockchain.mint_tokens C fuel now bc kp r a).1.success = true) := by
  constructor
  · intro hne
    unfold Blockchain.mint_tokens
    rw [if_pos hne]
  · intro heq
    have hauth : ¬(((bc.chain.head?.map Block.data).bind Payload.creatorAddress)
        ≠ some kp.public_key) := fun hcon => hcon heq
    unfold Blockchain.mint_tokens
    simp only [hauth, if_false, ite_false, if_neg]
    refine ⟨?_, ?_, ?_, (recordOp_effect C fuel now _ _ kp).2.2.2⟩
    · rw [(recordOp_effect C fuel now _ _ kp).1]
    · rw [(recordOp_effect C fuel now _ _ kp).1]
      show lookupD (addD bc.token.balances r a) r = lookupD bc.token.balances r + a
      rw [lookupD_addD]
      simp
    · intro x hx
      rw [(recordOp_effect C fuel now _ _ kp).1]
      show lookupD (addD bc.token.balances r a) x = lookupD bc.token.balances x
      rw [lookupD_addD]
      simp [hx]

set_option maxRecDepth 40000 in
/-- C7 (witness): the creator keypair mints 7 (supply 100 → 107); a
keypair with a different address is rejected with no state change. -/
theorem mint_authorization_witness :
    (Blockchain.mint_tokens Cex 1 3 bcG kpA ("u") 7).2.token.total_supply = 107
    ∧ Blockchain.mint_tokens Cex 1 3 bcG (KeyPair.create Cex privB) ("u") 7
        = (⟨false, none⟩, bcG) := by
  constructor
  · have h := (mint_authorization Cex 1 3 bcG kpA ("u") 7).2 (by decide)
    rw [h.1]
    decide
  · exact (mint_authorization Cex 1 3 bcG (KeyPair.create Cex privB) ("u") 7).1
      (by decide)

set_option maxRecDepth 40000 in
/-- C8 (counterexample): with an arbitrary integer amount, one transfer
from the freshly constructed chain drives an address's balance negative
(the code has no positivity check), refuting non-negativity for arbitrary
integer amounts. -/
theorem negative_balance_reachable :
    lookupD (applyOps Cex 1 5 bcG
      [LedgerOp.transfer kpA.public_key ("x") (-5)]).token.balances ("x") < 0 := by
  decide

/-- C8 (amended): for sequences of ledger operations whose amounts are all
non-negative, starting from the initial distribution of a freshly
constructed chain with non-negative supply, no stored balance is ever
negative. -/
theorem balance_nonnegativity (C : CryptoModel) (fuelI d : Nat)
    (tn ts : String) (sup : Int) (priv gbits : String) (t0 : Nat)
    (iso : String) (bc : Blockchain)
    (hinit : Blockchain.init C fuelI d tn ts sup priv gbits t0 iso = some bc)
    (hsup : 0 ≤ sup) (fuel now : Nat) (ops : List LedgerOp)
    (hpos : ∀ op ∈ ops, 0 ≤ LedgerOp.amount op) :
    allNonnegD (applyOps C fuel now bc ops).token.balances = true := by
  rw [allNonnegD_iff]
  have h0 : BalNonneg bc := by
    unfold Blockchain.init at hinit
    simp only [Option.map_eq_some'] at hinit
    obtain ⟨g, _, hbc⟩ := hinit
    rw [BalNonneg, ← hbc]
    show NonnegEntries (setD ([] : List (String × Int))
      (KeyPair.create C priv).public_key sup)
    intro p hp
    simp [setD] at hp
    rw [hp]
    exact hsup
  exact applyOps_balNonneg C fuel now bc ops h0 hpos

set_option maxRecDepth 40000 in
/-- C8 (witness): the non-negativity theorem evaluated on the concrete
chain with non-negative amounts. -/
theorem balance_nonnegativity_witness :
    allNonnegD (applyOps Cex 1 5 bcG
      [LedgerOp.transfer kpA.public_key ("u1") 30,
       LedgerOp.mint kpA ("u2") 7]).token.balances = true :=
  balance_nonnegativity Cex 1 0 ("Tok") ("TK") 100 privA ("1") 0 ("iso") bcG
    init_bcG (by decide) 1 5
    [LedgerOp.transfer kpA.public_key ("u1") 30,
     LedgerOp.mint kpA ("u2") 7]
    (by decide)

/-- C10 (amended): the chain is non-empty (the tip is defined) after
construction and after every modelled operation — `add_block`,
`transfer_token`, `mint_tokens`, `resolve_conflicts`; loading a snapshot,
however, yields a chain of exactly the snapshot's length, which is empty
for an empty snapshot (see the counterexample). -/
theorem tip_totality (C : CryptoModel) :
    (∀ fuel d tn ts sup priv gbits t0 iso bc,
      Blockchain.init C fuel d tn ts sup priv gbits t0 iso = some bc →
      (Blockchain.last_block bc).isSome = true)
    ∧ (∀ fuel now bc data kp rs b bc',
      Blockchain.add_block C fuel now bc data kp rs = some (b, bc') →
      (Blockchain.last_block bc').isSome = true)
    ∧ (∀ fuel now bc kp r a, bc.chain ≠ [] →
      (Blockchain.last_block
        (Blockchain.transfer_token C fuel now bc kp r a).2).isSome = true)
    ∧ (∀ fuel now bc kp r a, bc.chain ≠ [] →
      (Blockchain.last_block
        (Blockchain.mint_tokens C fuel now bc kp r a).2).isSome = true)
    ∧ (∀ bc chains, bc.chain ≠ [] →
      (Blockchain.last_block
        (Blockchain.resolve_conflicts C bc chains).2).isSome = true)
    ∧ (∀ d cd tok,
      (Blockchain.load_from_data C d cd tok).chain.length = cd.length) := by
  refine ⟨?_, ?_, ?_, ?_, ?_, ?_⟩
  · intro fuel d tn ts sup priv gbits t0 iso bc h
    exact last_block_isSome bc
      (init_chain_inv C fuel d tn ts sup priv gbits t0 iso bc h).1
  · intro fuel now bc data kp rs b bc' h
    have hch := (add_block_effect C fuel now bc data kp rs b bc' h).1
    refine last_block_isSome bc' ?_
    rw [hch]
    simp
  · intro fuel now bc kp r a h
    exact last_block_isSome _ (transfer_token_chain_ne C fuel now bc kp r a h)
  · intro fuel now bc kp r a h
    exact last_block_isSome _ (mint_tokens_chain_ne C fuel now bc kp r a h)
  · intro bc chains h
    exact last_block_isSome _ (resolve_conflicts_chain_ne C bc chains h)
  · intro d cd tok
    show (cd.map (BlockDict.toBlock C)).length = cd.length
    simp

/-- C10 (counterexample): loading a well-formed snapshot whose chain list
is empty yields an empty chain, so `tip()`/`last_block` is undefined —
the claim that the chain is non-empty after loading any snapshot fails. -/
theorem load_empty_snapshot_breaks_tip :
    Blockchain.last_block (Blockchain.load_from_data Cex 4 [] tokenC6) = none
    ∧ (Blockchain.load_from_data Cex 4 [] tokenC6).chain = [] :=
  ⟨rfl, rfl⟩

set_option maxRecDepth 40000 in
/-- C10 (witness): the tip of the freshly constructed chain is defined. -/
theorem tip_totality_witness :
    (Blockchain.last_block bcG).isSome = true :=
  (tip_totality Cex).1 1 0 ("Tok") ("TK") 100 privA ("1") 0 ("iso") bcG init_bcG

/-- When `recordOp` grew the chain, the appended tip block carries the
submitting keypair's signature over the canonical payload encoding and the
payload as mutated by `add_block`. -/
theorem recordOp_signed (C : CryptoModel) (fuel now : Nat)
    (bc1 : Blockchain) (p : Payload) (kp : KeyPair) (res : OpResult)
    (bc' : Blockchain) (b : Block)
    (h : recordOp C fuel now bc1 p kp = (res, bc'))
    (hlen : bc1.chain.length < bc'.chain.length)
    (hlast : Blockchain.last_block bc' = some b) :
    b.signature = KeyPair.sign C kp (C.encodePayload p)
    ∧ Payload.publicKeyOf b.data
        = Payload.publicKeyOf (Payload.withKeySig p kp.public_key
            (KeyPair.sign C kp (C.encodePayload p))) := by
  unfold recordOp at h
  cases hadd : Blockchain.add_block C fuel now bc1 p (some kp) ("") with
  | none =>
      rw [hadd] at h
      injection h with h1 h2
      rw [← h2] at hlen
      exact absurd hlen (by omega)
  | some pr =>
      obtain ⟨b2, bc2⟩ := pr
      rw [hadd] at h
      injection h with h1 h2
      subst h2
      obtain ⟨hsig, hdata, hchain⟩ :=
        add_block_signed C fuel now bc1 p kp ("") b2 bc2 hadd
      have hlast2 : Blockchain.last_block bc2 = some b2 := by
        unfold Blockchain.last_block
        rw [hchain]
        exact getLast?_append_single _ _
      rw [hlast2] at hlast
      injection hlast with hb
      rw [← hb]
      exact ⟨hsig, by rw [hdata]⟩

/-- C3 (amended): every accepted ledger mutation that reached the chain
records, in the appended block, a signature produced by the submitting
keypair over the canonical transaction encoding — so it verifies under
`KeyPair.verify` for that keypair, and the keypair's claimed public key is
stored alongside.  No verification against the claimed public key gates
acceptance: authorization is by balance (transfer) or by address equality
(mint) only, and a keypair with a forged `public_key` field is accepted
(see the counterexample). -/
theorem mutation_signature_recorded (C : CryptoModel) (fuel now : Nat)
    (bc : Blockchain) (kp : KeyPair) (r : String) (a : Int) :
    (∀ res bc' b,
      Blockchain.transfer_token C fuel now bc kp r a = (res, bc') →
      res.success = true → bc.chain.length < bc'.chain.length →
      Blockchain.last_block bc' = some b →
      b.signature = KeyPair.sign C kp (transferMsg C bc kp r a now)
      ∧ KeyPair.verify C kp (transferMsg C bc kp r a now) b.signature = true
      ∧ Payload.publicKeyOf b.data = some kp.public_key)
    ∧ (∀ res bc' b,
      Blockchain.mint_tokens C fuel now bc kp r a = (res, bc') →
      res.success = true → bc.chain.length < bc'.chain.length →
      Blockchain.last_block bc' = some b →
      b.signature = KeyPair.sign C kp (mintMsg C bc kp r a now)
      ∧ KeyPair.verify C kp (mintMsg C bc kp r a now) b.signature = true
      ∧ Payload.publicKeyOf b.data = some kp.public_key) := by
  constructor
  · intro res bc' b heq hsucc hlen hlast
    unfold Blockchain.transfer_token at heq
    by_cases hg : lookupD bc.token.balances kp.public_key < a
    · rw [if_pos hg] at heq
      injection heq with h1 h2
      rw [← h1] at hsucc
      exact absurd hsucc (by simp)
    · rw [if_neg hg] at heq
      have hok : (Token.transfer bc.token kp.public_key r a).1 = true := by
        unfold Token.transfer
        rw [if_neg hg]
      rw [hok] at heq
      rw [if_neg (by decide)] at heq
      obtain ⟨hsig, hpk⟩ :=
        recordOp_signed C fuel now _ _ kp res bc' b heq hlen hlast
      refine ⟨hsig, ?_, hpk.trans rfl⟩
      show (KeyPair.sign C kp (transferMsg C bc kp r a now) == b.signature) = true
      rw [hsig]
      exact beq_iff_eq.mpr rfl
  · intro res bc' b heq hsucc hlen hlast
    unfold Blockchain.mint_tokens at heq
    by_cases hauth : ((bc.chain.head?.map Block.data).bind Payload.creatorAddress)
        ≠ some kp.public_key
    · rw [if_pos hauth] at heq
      injection heq with h1 h2
      rw [← h1] at hsucc
      exact absurd hsucc (by simp)
    · rw [if_neg hauth] at heq
      obtain ⟨hsig, hpk⟩ :=
        recordOp_signed C fuel now _ _ kp res bc' b heq hlen hlast
      refine ⟨hsig, ?_, hpk.trans rfl⟩
      show (KeyPair.sign C kp (mintMsg C bc kp r a now) == b.signature) = true
      rw [hsig]
      exact beq_iff_eq.mpr rfl

set_option maxRecDepth 40000 in
/-- C3 (counterexample): a keypair whose `public_key` field was overwritten
with the creator's address (as the source's own demo does) is accepted by
`transfer_token`; the block it records claims the creator's public key,
yet its signature does not verify under the genuine keypair of that
public key — so a mutation whose signature fails verification against the
claimed public key is NOT rejected. -/
theorem forged_key_mutation_accepted :
    kpF.public_key = kpA.public_key
    ∧ kpF.private_key ≠ kpA.private_key
    ∧ (Blockchain.transfer_token Cex 1 7 bcG kpF ("rc") 5).1.success = true
    ∧ ((Blockchain.last_block
        (Blockchain.transfer_token Cex 1 7 bcG kpF ("rc") 5).2).map
        (fun b => Payload.publicKeyOf b.data)) = some (some kpA.public_key)
    ∧ ((Blockchain.last_block
        (Blockchain.transfer_token Cex 1 7 bcG kpF ("rc") 5).2).map
        (fun b => KeyPair.verify Cex kpA
          (Cex.encodePayload (.transferTx txF1)) b.signature)) = some false := by
  decide

set_option maxRecDepth 40000 in
/-- C3 (witness): an honest transfer by the creator keypair records a
signature that verifies under that keypair for the canonical message. -/
theorem mutation_signature_recorded_witness :
    ((Blockchain.last_block
        (Blockchain.transfer_token Cex 1 9 bcG kpA ("u") 5).2).map
      (fun b => KeyPair.verify Cex kpA
        (transferMsg Cex bcG kpA ("u") 5 9) b.signature)) = some true := by
  cases hlast : Blockchain.last_block
      (Blockchain.transfer_token Cex 1 9 bcG kpA ("u") 5).2 with
  | none =>
      have hi : (Blockchain.last_block
          (Blockchain.transfer_token Cex 1 9 bcG kpA ("u") 5).2).isSome = true := by
        decide
      rw [hlast] at hi
      exact absurd hi (by simp)
  | some b =>
      have h := (mutation_signature_recorded Cex 1 9 bcG kpA ("u") 5).1
        (Blockchain.transfer_token Cex 1 9 bcG kpA ("u") 5).1
        (Blockchain.transfer_token Cex 1 9 bcG kpA ("u") 5).2 b rfl
        (by decide) (by decide) hlast
      simp only [Option.map_some']
      rw [h.2.1]
